import Mathlib

/-!
Expense-approval workflow engine: a shallow embedding.

Shallow embedding of the expense-approval core of the repository
(`expenseController.createApprovalChain`, `expenseController.submit`,
`expenseController.approve` in the backend, and the rejection-comment guard
of `handleApprovalAction` in `public/app.js`), with theorems checking the
specification's claims about it.

JavaScript `Number` arithmetic in the percentage rule is modelled over `ℚ`;
timestamps (`Date.now()`) are modelled as `Nat`; `null` becomes `Option`.
-/

namespace ExpenseMgmt

/-- Status of an expense or of one approval step
(the Mongoose enum `[Pending, Approved, Rejected]`). -/
inductive Status where
  | Pending
  | Approved
  | Rejected
deriving DecidableEq, Repr

/-- A decision action from the request body: `Approved` or `Rejected`. -/
inductive Action where
  | Approved
  | Rejected
deriving DecidableEq, Repr

/-- Writing a decision action into a step's `status` field
(`expense.approvalChain[currentStepIndex].status = action`). -/
def Action.toStatus : Action → Status
  | .Approved => Status.Approved
  | .Rejected => Status.Rejected

/-- A directory user as seen by the workflow core: `id`, `role`, `managerId`
(`managerId` is `null`-able). -/
structure User where
  id : String
  role : String
  managerId : Option String
deriving DecidableEq, Repr

/-- One embedded approval step of an expense
(`{ stepName, approverId, status, comment, approvedAt }`). -/
structure ApprovalStep where
  stepName : String
  approverId : String
  status : Status
  comment : Option String
  approvedAt : Option Nat
deriving DecidableEq, Repr

/-- One template entry of `approvalRules.sequentialChain`: `{ role, name }`. -/
structure ChainTemplateStep where
  role : String
  name : String
deriving DecidableEq, Repr

/-- `approvalRules.percentageRule`: `{ enabled, threshold }`. -/
structure PercentageRule where
  enabled : Bool
  threshold : ℚ
deriving DecidableEq, Repr

/-- `approvalRules.hybridRule`: `{ enabled, approverId }` (the override rule;
`approverId` is `null`-able). -/
structure HybridRule where
  enabled : Bool
  approverId : Option String
deriving DecidableEq, Repr

/-- The company `approvalRules` document. -/
structure ApprovalRules where
  sequentialChain : List ChainTemplateStep
  percentageRule : PercentageRule
  hybridRule : HybridRule
deriving DecidableEq, Repr

/-- The slice of an expense record the workflow core reads and writes:
`id`, `userId`, `status`, `currentApproverIndex`, `approvalChain`.
All other fields (amounts, currency, dates, ...) are carried through
unchanged by the core and are not modelled. -/
structure Expense where
  id : String
  userId : String
  status : Status
  currentApproverIndex : Nat
  approvalChain : List ApprovalStep
deriving DecidableEq, Repr

/-- Errors of a single decision call (`expenseController.approve` plus the
client-side guard). `internalError` models the JavaScript `TypeError`
(surfaced as a 500) hit when `approvalChain[currentApproverIndex]` is
`undefined`. -/
inductive DecideError where
  | AlreadyFinalized
  | WrongApprover
  | MissingRejectionComment
  | internalError
deriving DecidableEq, Repr

/-- Errors of a submission (`createApprovalChain` throwing inside
`expenseController.submit`). -/
inductive SubmitError where
  | SubmitterNotFound
  | EmptyApprovalChain
deriving DecidableEq, Repr

/-! Chain Builder (`expenseController.createApprovalChain`) -/

/-- Resolving one template step to an approver:
`step.role === Manager` looks up the submitter's manager by id
(`allUsers.find(u => u.id === submittingUser.managerId)`), any other role
takes the first user with that role (`allUsers.find(u => u.role === step.role)`). -/
def resolveApprover (allUsers : List User) (submitter : User)
    (step : ChainTemplateStep) : Option User :=
  if step.role = "Manager" then
    allUsers.find? (fun u => some u.id = submitter.managerId)
  else
    allUsers.find? (fun u => u.role = step.role)

/-- The fresh approval step pushed for a resolved template step:
status `Pending`, comment `null`, `approvedAt` `null`. -/
def freshStep (step : ChainTemplateStep) (approver : User) : ApprovalStep :=
  { stepName := step.name
    approverId := approver.id
    status := Status.Pending
    comment := none
    approvedAt := none }

/-- The `for (const step of sequentialChain)` loop of `createApprovalChain`:
push a fresh step when an approver resolves, otherwise skip the step. -/
def buildChainSteps (allUsers : List User) (submitter : User) :
    List ChainTemplateStep → List ApprovalStep
  | [] => []
  | step :: rest =>
    match resolveApprover allUsers submitter step with
    | some approver => freshStep step approver :: buildChainSteps allUsers submitter rest
    | none => buildChainSteps allUsers submitter rest

/-- `expenseController.createApprovalChain`: find the submitter
(else `SubmitterNotFound`), run the resolution loop, and fail with
`EmptyApprovalChain` when no step resolved. -/
def createApprovalChain (rules : ApprovalRules) (allUsers : List User)
    (expenseUserId : String) : Except SubmitError (List ApprovalStep) :=
  match allUsers.find? (fun u => u.id = expenseUserId) with
  | none => Except.error SubmitError.SubmitterNotFound
  | some submitter =>
    let chain := buildChainSteps allUsers submitter rules.sequentialChain
    if chain.length = 0 then Except.error SubmitError.EmptyApprovalChain
    else Except.ok chain

/-- `expenseController.submit` restricted to the workflow core: build the
chain for the submitter and create the expense at step 0, status `Pending`
(the Mongoose defaults). -/
def submitExpense (rules : ApprovalRules) (allUsers : List User)
    (expenseId userId : String) : Except SubmitError Expense :=
  (createApprovalChain rules allUsers userId).map (fun chain =>
    { id := expenseId
      userId := userId
      status := Status.Pending
      currentApproverIndex := 0
      approvalChain := chain })

/-! Approval State Machine (`expenseController.approve`) -/

/-- Number of chain steps whose status is `Approved`
(`approvalChain.filter(s => s.status === Approved).length`). -/
def countApproved (chain : List ApprovalStep) : Nat :=
  (chain.filter (fun s => decide (s.status = Status.Approved))).length

/-- Marking the current step with the decision:
`status = action; comment = comment; approvedAt = Date.now()`. -/
def markCurrent (e : Expense) (st : ApprovalStep) (action : Action)
    (comment : String) (now : Nat) : Expense :=
  let decided : ApprovalStep :=
    { st with status := action.toStatus
              comment := some comment
              approvedAt := some now }
  { e with approvalChain := e.approvalChain.set e.currentApproverIndex decided }

/-- The override (hybrid) rule check:
`hybridRule.enabled && hybridRule.approverId === approverId && action === Approved`
set status `Approved`. -/
def applyHybrid (rules : ApprovalRules) (approverId : String) (action : Action)
    (e : Expense) : Expense :=
  if rules.hybridRule.enabled ∧ rules.hybridRule.approverId = some approverId
      ∧ action = Action.Approved then
    { e with status := Status.Approved }
  else e

/-- The sequential advance: while still `Pending`, move to
`currentStepIndex + 1`, or set status `Approved` when the chain is
exhausted. -/
def applySequential (e : Expense) : Expense :=
  if e.status = Status.Pending then
    let nextIndex := e.currentApproverIndex + 1
    if e.approvalChain.length ≤ nextIndex then { e with status := Status.Approved }
    else { e with currentApproverIndex := nextIndex }
  else e

/-- The percentage rule: while still `Pending` and the rule is enabled,
approve when `(approvedCount / totalApproversInChain) * 100` meets the
threshold (guarded by `totalApproversInChain > 0`). -/
def applyPercentage (rules : ApprovalRules) (e : Expense) : Expense :=
  if e.status = Status.Pending ∧ rules.percentageRule.enabled then
    let approvedCount := countApproved e.approvalChain
    let total := e.approvalChain.length
    if 0 < total ∧
        ((approvedCount : ℚ) / (total : ℚ)) * 100 ≥ rules.percentageRule.threshold then
      { e with status := Status.Approved }
    else e
  else e

/-- The final pin: `if status is not Pending then currentApproverIndex = approvalChain.length`. -/
def pinIndex (e : Expense) : Expense :=
  if e.status ≠ Status.Pending then
    { e with currentApproverIndex := e.approvalChain.length }
  else e

/-- The transition applied after the current step has been marked:
`Rejected` finalizes unconditionally; `Approved` runs the hybrid check,
then the sequential advance, then the percentage rule, in the source's order. -/
def decideTransition (rules : ApprovalRules) (approverId : String)
    (action : Action) (e1 : Expense) : Expense :=
  if action = Action.Rejected then { e1 with status := Status.Rejected }
  else applyPercentage rules (applySequential (applyHybrid rules approverId action e1))

/-- `expenseController.approve`, the server-side decision call: check
finalization, read the current step, check the designated approver, mark
the step, run the transition, pin the index, and return the expense that is
then saved. -/
def approve (rules : ApprovalRules) (e : Expense) (approverId : String)
    (action : Action) (comment : String) (now : Nat) : Except DecideError Expense :=
  if e.status ≠ Status.Pending then Except.error DecideError.AlreadyFinalized
  else
    match e.approvalChain[e.currentApproverIndex]? with
    | none => Except.error DecideError.internalError
    | some currentStep =>
      if currentStep.approverId ≠ approverId then Except.error DecideError.WrongApprover
      else
        Except.ok (pinIndex (decideTransition rules approverId action
          (markCurrent e currentStep action comment now)))

/-! Client-side rejection-comment guard (`public/app.js`, `handleApprovalAction`) -/

/-- The JavaScript test `!comment.trim()`: the comment trims to the empty
string, i.e. every character of it is whitespace (this includes the empty
comment). -/
def isBlank (s : String) : Bool :=
  s.data.all Char.isWhitespace

/-- The guard `if (action === Rejected && !comment.trim())` of
`handleApprovalAction`: a rejection whose comment trims to the empty string
is blocked before the API call is made. -/
def rejectionCommentMissing (action : Action) (comment : String) : Prop :=
  action = Action.Rejected ∧ isBlank comment = true

instance (action : Action) (comment : String) :
    Decidable (rejectionCommentMissing action comment) := by
  unfold rejectionCommentMissing
  infer_instance

/-- The full decision flow of the application: the client-side
blank-rejection-comment guard followed by the server-side `approve` call. -/
def handleApproval (rules : ApprovalRules) (e : Expense) (approverId : String)
    (action : Action) (comment : String) (now : Nat) : Except DecideError Expense :=
  if rejectionCommentMissing action comment then
    Except.error DecideError.MissingRejectionComment
  else approve rules e approverId action comment now

/-- The decision flow together with persistence: on success the updated
expense is saved, on any error nothing is written and the stored record
keeps its prior value. -/
def handleApprovalAndSave (rules : ApprovalRules) (e : Expense) (approverId : String)
    (action : Action) (comment : String) (now : Nat) : Expense × Option DecideError :=
  match handleApproval rules e approverId action comment now with
  | Except.ok e' => (e', none)
  | Except.error err => (e, some err)

/-- The approver designated at the current step of an expense
(`approvalChain[currentApproverIndex].approverId`; the empty string stands
for the out-of-range case, which never occurs along the runs we consider). -/
def currentApproverId (e : Expense) : String :=
  ((e.approvalChain[e.currentApproverIndex]?).map (fun st => st.approverId)).getD ""

/-- Running `n` successive decision calls, each made by the approver
designated at the current step, with action `Approved` and an empty
comment. -/
def approveRun (rules : ApprovalRules) (now : Nat) : Expense → Nat → Except DecideError Expense
  | e, 0 => Except.ok e
  | e, n + 1 =>
    (approve rules e (currentApproverId e) Action.Approved "" now).bind
      (fun e' => approveRun rules now e' n)

/-- A chain step still in its initial template state: status `Pending`,
`comment` and `approvedAt` both `null`. -/
def pristineStep (st : ApprovalStep) : Prop :=
  st.status = Status.Pending ∧ st.comment = none ∧ st.approvedAt = none

/-- The documented chain invariant of a pending expense: the current index
is in range, every earlier step is `Approved`, the step at the current
index is `Pending`, and every later step is an untouched `Pending`
placeholder. -/
def ChainInvariant (e : Expense) : Prop :=
  e.status = Status.Pending →
    e.currentApproverIndex < e.approvalChain.length ∧
    ∀ j st, e.approvalChain[j]? = some st →
      (j < e.currentApproverIndex → st.status = Status.Approved) ∧
      (j = e.currentApproverIndex → st.status = Status.Pending) ∧
      (e.currentApproverIndex < j → pristineStep st)

/-- The expenses produced by the workflow core: a successful submission,
followed by any number of successful decision calls (under possibly
different company settings each time). -/
inductive Reachable : Expense → Prop where
  | submitted (rules : ApprovalRules) (allUsers : List User) (eid uid : String)
      (e : Expense) (h : submitExpense rules allUsers eid uid = Except.ok e) :
      Reachable e
  | decided (rules : ApprovalRules) (e : Expense) (a : String) (act : Action)
      (c : String) (t : Nat) (e' : Expense) (hr : Reachable e)
      (h : approve rules e a act c t = Except.ok e') : Reachable e'

/-! Concrete fixtures (a small directory and company settings) -/

/-- Directory fixture: an employee with a manager, plus one user for each
other configured role. -/
def cUsers : List User :=
  [ { id := "emp", role := "Employee", managerId := some "mgr" },
    { id := "mgr", role := "Manager", managerId := none },
    { id := "fin", role := "Finance", managerId := none },
    { id := "dir", role := "Director", managerId := none } ]

/-- The repository's default settings: the three-step sequential chain with
the percentage rule enabled at threshold 60 and the override rule disabled. -/
def cRules : ApprovalRules :=
  { sequentialChain :=
      [ { role := "Manager", name := "Direct Manager" },
        { role := "Finance", name := "Finance Reviewer" },
        { role := "Director", name := "Director/CFO" } ]
    percentageRule := { enabled := true, threshold := 60 }
    hybridRule := { enabled := false, approverId := none } }

/-- The default settings with both conditional rules disabled. -/
def cRulesOff : ApprovalRules :=
  { cRules with percentageRule := { enabled := false, threshold := 60 } }

/-- Settings with the override rule designating the manager and the
percentage rule disabled. -/
def cRulesHybrid : ApprovalRules :=
  { cRules with
      percentageRule := { enabled := false, threshold := 60 }
      hybridRule := { enabled := true, approverId := some "mgr" } }

/-- The expense produced by submitting for `emp` under `cRules`/`cUsers`:
a fresh three-step chain at index 0. -/
def cExpense : Expense :=
  { id := "e1", userId := "emp", status := Status.Pending, currentApproverIndex := 0,
    approvalChain :=
      [ { stepName := "Direct Manager", approverId := "mgr", status := Status.Pending,
          comment := none, approvedAt := none },
        { stepName := "Finance Reviewer", approverId := "fin", status := Status.Pending,
          comment := none, approvedAt := none },
        { stepName := "Director/CFO", approverId := "dir", status := Status.Pending,
          comment := none, approvedAt := none } ] }

/-- `cExpense` after the manager's first approval (comment empty, time 5):
still pending at index 1. -/
def cExpenseAfter1 : Expense :=
  { id := "e1", userId := "emp", status := Status.Pending, currentApproverIndex := 1,
    approvalChain :=
      [ { stepName := "Direct Manager", approverId := "mgr", status := Status.Approved,
          comment := some "", approvedAt := some 5 },
        { stepName := "Finance Reviewer", approverId := "fin", status := Status.Pending,
          comment := none, approvedAt := none },
        { stepName := "Director/CFO", approverId := "dir", status := Status.Pending,
          comment := none, approvedAt := none } ] }

/-- A pending five-step chain whose first step is the manager's, for the
override-rule scenario. -/
def cExpense5 : Expense :=
  { id := "e5", userId := "emp", status := Status.Pending, currentApproverIndex := 0,
    approvalChain :=
      [ { stepName := "s1", approverId := "mgr", status := Status.Pending,
          comment := none, approvedAt := none },
        { stepName := "s2", approverId := "a2", status := Status.Pending,
          comment := none, approvedAt := none },
        { stepName := "s3", approverId := "a3", status := Status.Pending,
          comment := none, approvedAt := none },
        { stepName := "s4", approverId := "a4", status := Status.Pending,
          comment := none, approvedAt := none },
        { stepName := "s5", approverId := "a5", status := Status.Pending,
          comment := none, approvedAt := none } ] }

/-- `cExpense` after the manager rejects the first step with comment
"bad receipt" at time 7: status `Rejected`, index pinned to 3. -/
def cRejected : Expense :=
  { id := "e1", userId := "emp", status := Status.Rejected, currentApproverIndex := 3,
    approvalChain :=
      [ { stepName := "Direct Manager", approverId := "mgr", status := Status.Rejected,
          comment := some "bad receipt", approvedAt := some 7 },
        { stepName := "Finance Reviewer", approverId := "fin", status := Status.Pending,
          comment := none, approvedAt := none },
        { stepName := "Director/CFO", approverId := "dir", status := Status.Pending,
          comment := none, approvedAt := none } ] }

/-! Helper lemmas about the decision stages -/

theorem markCurrent_status (e : Expense) (st : ApprovalStep) (act : Action)
    (c : String) (t : Nat) : (markCurrent e st act c t).status = e.status := rfl

theorem markCurrent_index (e : Expense) (st : ApprovalStep) (act : Action)
    (c : String) (t : Nat) :
    (markCurrent e st act c t).currentApproverIndex = e.currentApproverIndex := rfl

theorem markCurrent_chain (e : Expense) (st : ApprovalStep) (act : Action)
    (c : String) (t : Nat) :
    (markCurrent e st act c t).approvalChain =
      e.approvalChain.set e.currentApproverIndex
        { st with status := act.toStatus, comment := some c, approvedAt := some t } := rfl

theorem markCurrent_length (e : Expense) (st : ApprovalStep) (act : Action)
    (c : String) (t : Nat) :
    (markCurrent e st act c t).approvalChain.length = e.approvalChain.length := by
  rw [markCurrent_chain, List.length_set]

theorem applyHybrid_of_neg {rules : ApprovalRules} {a : String} {act : Action}
    (e : Expense)
    (h : ¬(rules.hybridRule.enabled ∧ rules.hybridRule.approverId = some a
        ∧ act = Action.Approved)) :
    applyHybrid rules a act e = e := by
  unfold applyHybrid
  rw [if_neg h]

theorem applyHybrid_of_pos {rules : ApprovalRules} {a : String} {act : Action}
    (e : Expense)
    (h : rules.hybridRule.enabled ∧ rules.hybridRule.approverId = some a
        ∧ act = Action.Approved) :
    applyHybrid rules a act e = { e with status := Status.Approved } := by
  unfold applyHybrid
  rw [if_pos h]

theorem applySequential_advance {e : Expense} (hp : e.status = Status.Pending)
    (h : e.currentApproverIndex + 1 < e.approvalChain.length) :
    applySequential e = { e with currentApproverIndex := e.currentApproverIndex + 1 } := by
  unfold applySequential
  rw [if_pos hp, if_neg (by omega)]

theorem applySequential_finalize {e : Expense} (hp : e.status = Status.Pending)
    (h : e.approvalChain.length ≤ e.currentApproverIndex + 1) :
    applySequential e = { e with status := Status.Approved } := by
  unfold applySequential
  rw [if_pos hp, if_pos h]

theorem applySequential_of_final {e : Expense} (hp : e.status ≠ Status.Pending) :
    applySequential e = e := by
  unfold applySequential
  rw [if_neg hp]

theorem applyPercentage_of_neg {rules : ApprovalRules} {e : Expense}
    (h : ¬(e.status = Status.Pending ∧ rules.percentageRule.enabled)) :
    applyPercentage rules e = e := by
  unfold applyPercentage
  rw [if_neg h]

theorem applyPercentage_fires {rules : ApprovalRules} {e : Expense}
    (hp : e.status = Status.Pending) (hen : rules.percentageRule.enabled)
    (h : 0 < e.approvalChain.length ∧
      ((countApproved e.approvalChain : ℚ) / (e.approvalChain.length : ℚ)) * 100 ≥
        rules.percentageRule.threshold) :
    applyPercentage rules e = { e with status := Status.Approved } := by
  unfold applyPercentage
  rw [if_pos ⟨hp, hen⟩, if_pos h]

theorem applyPercentage_skips {rules : ApprovalRules} {e : Expense}
    (h : ¬(0 < e.approvalChain.length ∧
      ((countApproved e.approvalChain : ℚ) / (e.approvalChain.length : ℚ)) * 100 ≥
        rules.percentageRule.threshold)) :
    applyPercentage rules e = e := by
  unfold applyPercentage
  split
  · rw [if_neg h]
  · rfl

theorem pinIndex_of_pending {e : Expense} (hp : e.status = Status.Pending) :
    pinIndex e = e := by
  unfold pinIndex
  rw [if_neg (by simp [hp])]

theorem pinIndex_of_final {e : Expense} (hp : e.status ≠ Status.Pending) :
    pinIndex e = { e with currentApproverIndex := e.approvalChain.length } := by
  unfold pinIndex
  rw [if_pos hp]

theorem pinIndex_status (e : Expense) : (pinIndex e).status = e.status := by
  unfold pinIndex
  split <;> rfl

theorem pinIndex_chain (e : Expense) : (pinIndex e).approvalChain = e.approvalChain := by
  unfold pinIndex
  split <;> rfl

theorem applyHybrid_chain (rules : ApprovalRules) (a : String) (act : Action)
    (e : Expense) : (applyHybrid rules a act e).approvalChain = e.approvalChain := by
  unfold applyHybrid
  split <;> rfl

theorem applySequential_chain (e : Expense) :
    (applySequential e).approvalChain = e.approvalChain := by
  unfold applySequential
  split
  · dsimp only
    split <;> rfl
  · rfl

theorem applyPercentage_chain (rules : ApprovalRules) (e : Expense) :
    (applyPercentage rules e).approvalChain = e.approvalChain := by
  unfold applyPercentage
  split
  · dsimp only
    split <;> rfl
  · rfl

theorem decideTransition_chain (rules : ApprovalRules) (a : String) (act : Action)
    (e1 : Expense) : (decideTransition rules a act e1).approvalChain = e1.approvalChain := by
  unfold decideTransition
  split
  · rfl
  · rw [applyPercentage_chain, applySequential_chain, applyHybrid_chain]

/-- Shape of a successful decision call: all three preconditions passing,
`approve` marks the current step, runs the transition and pins the index. -/
theorem approve_ok_eq (rules : ApprovalRules) (e : Expense) (approverId : String)
    (action : Action) (comment : String) (now : Nat) (st : ApprovalStep)
    (hp : e.status = Status.Pending)
    (hst : e.approvalChain[e.currentApproverIndex]? = some st)
    (hdes : st.approverId = approverId) :
    approve rules e approverId action comment now =
      Except.ok (pinIndex (decideTransition rules approverId action
        (markCurrent e st action comment now))) := by
  unfold approve
  rw [if_neg (by simp [hp]), hst]
  simp [hdes]

/-- A finalized expense is turned back with `AlreadyFinalized` before
anything else is looked at. -/
theorem approve_already_finalized (rules : ApprovalRules) (e : Expense)
    (a : String) (act : Action) (c : String) (t : Nat)
    (hp : e.status ≠ Status.Pending) :
    approve rules e a act c t = Except.error DecideError.AlreadyFinalized := by
  unfold approve
  rw [if_pos hp]

/-- A caller other than the designated approver of the current step is
turned back with `WrongApprover`. -/
theorem approve_wrong_approver (rules : ApprovalRules) (e : Expense)
    (a : String) (act : Action) (c : String) (t : Nat) (st : ApprovalStep)
    (hp : e.status = Status.Pending)
    (hst : e.approvalChain[e.currentApproverIndex]? = some st)
    (hne : st.approverId ≠ a) :
    approve rules e a act c t = Except.error DecideError.WrongApprover := by
  unfold approve
  rw [if_neg (by simp [hp]), hst]
  simp [hne]

/-- The server-side decision call never produces `MissingRejectionComment`:
that check does not exist in `expenseController.approve`. -/
theorem approve_ne_missingComment (rules : ApprovalRules) (e : Expense)
    (a : String) (act : Action) (c : String) (t : Nat) :
    approve rules e a act c t ≠ Except.error DecideError.MissingRejectionComment := by
  unfold approve
  split
  · simp
  · split
    · simp
    · split <;> simp

/-- Inversion of a successful decision call: all three preconditions passed
and the result is the marked, transitioned, pinned expense. -/
theorem approve_ok_inv {rules : ApprovalRules} {e : Expense} {a : String}
    {act : Action} {c : String} {t : Nat} {e' : Expense}
    (h : approve rules e a act c t = Except.ok e') :
    ∃ st, e.status = Status.Pending ∧
      e.approvalChain[e.currentApproverIndex]? = some st ∧
      st.approverId = a ∧
      e' = pinIndex (decideTransition rules a act (markCurrent e st act c t)) := by
  unfold approve at h
  split at h
  · exact absurd h (by simp)
  · rename_i hp
    split at h
    · exact absurd h (by simp)
    · rename_i st hst
      split at h
      · exact absurd h (by simp)
      · rename_i hne
        rw [Except.ok.injEq] at h
        exact ⟨st, by simpa using hp, hst, by simpa using hne, h.symm⟩

/-- A successful decision never changes the length of the approval chain. -/
theorem approve_ok_length {rules : ApprovalRules} {e : Expense} {a : String}
    {act : Action} {c : String} {t : Nat} {e' : Expense}
    (h : approve rules e a act c t = Except.ok e') :
    e'.approvalChain.length = e.approvalChain.length := by
  obtain ⟨st, hp, hst, hdes, rfl⟩ := approve_ok_inv h
  rw [pinIndex_chain, decideTransition_chain, markCurrent_length]

/-! Claims -/

/-- Claim C10: After every decision call that finalizes the expense —
including a rejection — `currentApproverIndex` equals the chain length:
the index is pinned whenever the resulting status is not `Pending`. -/
theorem C10_finalized_pins_index (rules : ApprovalRules) (e : Expense)
    (a : String) (act : Action) (c : String) (t : Nat) (e' : Expense)
    (h : approve rules e a act c t = Except.ok e')
    (hfin : e'.status ≠ Status.Pending) :
    e'.currentApproverIndex = e'.approvalChain.length := by
  obtain ⟨st, hp, hst, hdes, rfl⟩ := approve_ok_inv h
  by_cases h2 : (decideTransition rules a act (markCurrent e st act c t)).status =
      Status.Pending
  · rw [pinIndex_of_pending h2] at hfin
    exact absurd h2 hfin
  · rw [pinIndex_of_final h2]

/-- Witness for C10: the manager rejecting the first step of the three-step
chain pins the index to the chain length 3. -/
theorem C10_witness :
    ∃ e', approve cRulesOff cExpense "mgr" Action.Rejected "bad receipt" 7 = Except.ok e' ∧
      e'.currentApproverIndex = e'.approvalChain.length := by
  refine ⟨_, rfl, ?_⟩
  exact C10_finalized_pins_index cRulesOff cExpense "mgr" Action.Rejected "bad receipt" 7 _
    rfl (by decide)

/-- Claim C3: For a pending expense whose current designated approver is the
override rule's designated approver, an approval finalizes the expense
immediately — before the sequential advance and before the percentage
check, hence with no hypothesis on either — and every other chain step is
left untouched; in particular all steps after the current one keep their
initial `Pending` state with null comment and null timestamp. -/
theorem C3_override_rule (rules : ApprovalRules) (e : Expense)
    (approverId comment : String) (now : Nat) (st : ApprovalStep)
    (hp : e.status = Status.Pending)
    (hst : e.approvalChain[e.currentApproverIndex]? = some st)
    (hdes : st.approverId = approverId)
    (hen : rules.hybridRule.enabled = true)
    (hid : rules.hybridRule.approverId = some approverId)
    (hlater : ∀ j st', e.currentApproverIndex < j → e.approvalChain[j]? = some st' →
      pristineStep st') :
    ∃ e', approve rules e approverId Action.Approved comment now = Except.ok e' ∧
      e'.status = Status.Approved ∧
      e'.currentApproverIndex = e.approvalChain.length ∧
      (∀ j, j ≠ e.currentApproverIndex → e'.approvalChain[j]? = e.approvalChain[j]?) ∧
      (∀ j st', e.currentApproverIndex < j → e'.approvalChain[j]? = some st' →
        pristineStep st') := by
  rw [approve_ok_eq rules e approverId Action.Approved comment now st hp hst hdes]
  unfold decideTransition
  rw [if_neg (by simp), applyHybrid_of_pos _ ⟨hen, hid, rfl⟩]
  have hfin : ({ markCurrent e st Action.Approved comment now with
      status := Status.Approved } : Expense).status ≠ Status.Pending := by simp
  rw [applySequential_of_final hfin, applyPercentage_of_neg (by simp), pinIndex_of_final hfin]
  refine ⟨_, rfl, rfl, ?_, ?_, ?_⟩
  · exact markCurrent_length e st Action.Approved comment now
  · intro j hj
    show (markCurrent e st Action.Approved comment now).approvalChain[j]? =
      e.approvalChain[j]?
    rw [markCurrent_chain]
    exact List.getElem?_set_ne (Ne.symm hj)
  · intro j st' hlt hj
    refine hlater j st' hlt ?_
    dsimp only at hj
    rw [markCurrent_chain] at hj
    rwa [List.getElem?_set_ne (by omega)] at hj

/-- Witness for C3: the designated override approver (the manager) approving
the first step of the five-step chain finalizes it at once, with steps 2–5
untouched and pristine. -/
theorem C3_witness :
    ∃ e', approve cRulesHybrid cExpense5 "mgr" Action.Approved "ok" 9 = Except.ok e' ∧
      e'.status = Status.Approved ∧
      e'.currentApproverIndex = cExpense5.approvalChain.length ∧
      (∀ j st', cExpense5.currentApproverIndex < j → e'.approvalChain[j]? = some st' →
        pristineStep st') := by
  obtain ⟨e', hok, hA, hidx, _, hpr⟩ :=
    C3_override_rule cRulesHybrid cExpense5 "mgr" "ok" 9 _ rfl rfl rfl rfl rfl
      (by
        intro j st' _ hj
        have hm := List.getElem?_mem hj
        fin_cases hm <;> exact ⟨rfl, rfl, rfl⟩)
  exact ⟨e', hok, hA, hidx, hpr⟩

/-- Claim C2: For a pending expense with the percentage rule enabled, when the
current designated approver approves, the override rule does not apply and
the sequential advance does not exhaust the chain, the decision succeeds
and the expense becomes `Approved` exactly when the count of `Approved`
steps (once the current step is marked) over the total chain length reaches
the threshold percentage; otherwise it remains `Pending` at the next index. -/
theorem C2_percentage_rule (rules : ApprovalRules) (e : Expense)
    (approverId comment : String) (now : Nat) (st : ApprovalStep)
    (hp : e.status = Status.Pending)
    (hst : e.approvalChain[e.currentApproverIndex]? = some st)
    (hdes : st.approverId = approverId)
    (hper : rules.percentageRule.enabled = true)
    (hnohyb : ¬(rules.hybridRule.enabled = true ∧
        rules.hybridRule.approverId = some approverId))
    (hnoexh : e.currentApproverIndex + 1 < e.approvalChain.length) :
    ∃ e', approve rules e approverId Action.Approved comment now = Except.ok e' ∧
      (e'.status = Status.Approved ↔
        ((countApproved (markCurrent e st Action.Approved comment now).approvalChain : ℚ) /
            (e.approvalChain.length : ℚ)) * 100 ≥ rules.percentageRule.threshold) ∧
      (e'.status ≠ Status.Approved →
        e'.status = Status.Pending ∧
        e'.currentApproverIndex = e.currentApproverIndex + 1) := by
  rw [approve_ok_eq rules e approverId Action.Approved comment now st hp hst hdes]
  unfold decideTransition
  rw [if_neg (by simp),
    applyHybrid_of_neg _ (fun hc => hnohyb ⟨hc.1, hc.2.1⟩)]
  have h1p : (markCurrent e st Action.Approved comment now).status = Status.Pending := hp
  rw [applySequential_advance h1p
    (by rw [markCurrent_index, markCurrent_length]; exact hnoexh)]
  set e1 := markCurrent e st Action.Approved comment now with he1
  set e2 : Expense := { e1 with currentApproverIndex := e1.currentApproverIndex + 1 }
    with he2
  have h2p : e2.status = Status.Pending := h1p
  have h2chain : e2.approvalChain = e1.approvalChain := rfl
  have h2len : e2.approvalChain.length = e.approvalChain.length :=
    markCurrent_length e st Action.Approved comment now
  by_cases hcond : ((countApproved e1.approvalChain : ℚ) /
      (e.approvalChain.length : ℚ)) * 100 ≥ rules.percentageRule.threshold
  · rw [applyPercentage_fires h2p hper
      (by rw [h2chain, h2len]; exact ⟨by omega, hcond⟩)]
    rw [pinIndex_of_final (by simp)]
    refine ⟨_, rfl, ?_, ?_⟩
    · simpa using hcond
    · intro hne
      exact absurd rfl hne
  · rw [applyPercentage_skips (by rw [h2chain, h2len]; exact fun hc => hcond hc.2)]
    rw [pinIndex_of_pending h2p]
    refine ⟨e2, rfl, ?_, fun _ => ⟨h2p, ?_⟩⟩
    · constructor
      · intro hA
        rw [hA] at h2p
        exact absurd h2p (by simp)
      · intro hge
        exact absurd hge hcond
    · show e1.currentApproverIndex + 1 = e.currentApproverIndex + 1
      rw [markCurrent_index]

/-- Witness for C2: threshold 60 on the three-step chain — after the second
approval (two of three steps approved, 66.7 %) the expense is `Approved`,
while after exactly one approval (33 %) it is still `Pending` at index 1. -/
theorem C2_witness :
    (∃ e', approve cRules cExpenseAfter1 "fin" Action.Approved "" 6 = Except.ok e' ∧
      e'.status = Status.Approved) ∧
    (∃ e', approve cRules cExpense "mgr" Action.Approved "" 5 = Except.ok e' ∧
      e'.status = Status.Pending ∧ e'.currentApproverIndex = 1) := by
  constructor
  · obtain ⟨e', hok, hiff, _⟩ :=
      C2_percentage_rule cRules cExpenseAfter1 "fin" "" 6
        { stepName := "Finance Reviewer", approverId := "fin", status := Status.Pending,
          comment := none, approvedAt := none }
        rfl rfl rfl rfl (by decide) (by decide)
    refine ⟨e', hok, hiff.mpr ?_⟩
    rw [show countApproved (markCurrent cExpenseAfter1
        { stepName := "Finance Reviewer", approverId := "fin", status := Status.Pending,
          comment := none, approvedAt := none }
        Action.Approved "" 6).approvalChain = 2 from rfl,
      show cExpenseAfter1.approvalChain.length = 3 from rfl,
      show cRules.percentageRule.threshold = 60 from rfl]
    norm_num
  · obtain ⟨e', hok, hiff, hrest⟩ :=
      C2_percentage_rule cRules cExpense "mgr" "" 5
        { stepName := "Direct Manager", approverId := "mgr", status := Status.Pending,
          comment := none, approvedAt := none }
        rfl rfl rfl rfl (by decide) (by decide)
    have hnc : ¬ e'.status = Status.Approved := by
      intro hA
      have hge := hiff.mp hA
      rw [show countApproved (markCurrent cExpense
          { stepName := "Direct Manager", approverId := "mgr", status := Status.Pending,
            comment := none, approvedAt := none }
          Action.Approved "" 5).approvalChain = 1 from rfl,
        show cExpense.approvalChain.length = 3 from rfl,
        show cRules.percentageRule.threshold = 60 from rfl] at hge
      norm_num at hge
    obtain ⟨hP, hI⟩ := hrest hnc
    exact ⟨e', hok, hP, hI⟩


/-- Claim C1 counterexample: The claim fails on the server code: on the
three-step fixture, the manager's rejection with an empty comment does not
fail with `MissingRejectionComment` — `expenseController.approve` has no
such check — it succeeds and mutates the expense to `Rejected`. -/
theorem C1_counterexample :
    ∃ e', approve cRules cExpense "mgr" Action.Rejected "" 7 = Except.ok e' ∧
      e' ≠ cExpense ∧ e'.status = Status.Rejected :=
  ⟨_, rfl, by decide, rfl⟩

/-- Claim C1 amended: The blank-rejection-comment check lives in the client
(`handleApprovalAction` in `public/app.js`), not in the server decide: the
full decision flow — client guard followed by the server call — fails with
`MissingRejectionComment` exactly when the action is `Rejected` and the
comment is blank, in which case no API call is made and the stored expense
is untouched (the server `approve` alone never produces this error); and
approving with an empty comment succeeds when the other preconditions hold. -/
theorem C1_rejection_comment_client_guard (rules : ApprovalRules) (e : Expense)
    (approverId comment : String) (now : Nat) :
    (∀ action : Action,
      handleApproval rules e approverId action comment now =
          Except.error DecideError.MissingRejectionComment ↔
        (action = Action.Rejected ∧ isBlank comment = true)) ∧
    (isBlank comment = true →
      handleApprovalAndSave rules e approverId Action.Rejected comment now =
        (e, some DecideError.MissingRejectionComment)) ∧
    (∀ st : ApprovalStep, e.status = Status.Pending →
      e.approvalChain[e.currentApproverIndex]? = some st →
      st.approverId = approverId →
      ∃ e', handleApproval rules e approverId Action.Approved "" now = Except.ok e') := by
  refine ⟨?_, ?_, ?_⟩
  · intro action
    constructor
    · intro h
      by_cases hg : rejectionCommentMissing action comment
      · exact hg
      · unfold handleApproval at h
        rw [if_neg hg] at h
        exact absurd h (approve_ne_missingComment rules e approverId action comment now)
    · intro hg
      have hg2 : rejectionCommentMissing action comment := hg
      unfold handleApproval
      rw [if_pos hg2]
  · intro hb
    have hg : rejectionCommentMissing Action.Rejected comment := ⟨rfl, hb⟩
    unfold handleApprovalAndSave handleApproval
    rw [if_pos hg]
  · intro st hp hst hdes
    unfold handleApproval
    rw [if_neg (fun hg => absurd hg.1 (by decide)),
      approve_ok_eq rules e approverId Action.Approved "" now st hp hst hdes]
    exact ⟨_, rfl⟩

/-- Witness for the amended C1: a blank-comment rejection is blocked with
`MissingRejectionComment` before any call while the record stays unchanged,
and the manager's empty-comment approval of the same expense succeeds. -/
theorem C1_witness :
    handleApproval cRules cExpense "mgr" Action.Rejected " " 7 =
      Except.error DecideError.MissingRejectionComment ∧
    handleApprovalAndSave cRules cExpense "mgr" Action.Rejected " " 7 =
      (cExpense, some DecideError.MissingRejectionComment) ∧
    (∃ e', handleApproval cRules cExpense "mgr" Action.Approved "" 7 = Except.ok e') := by
  obtain ⟨hiff, hsave, hok⟩ :=
    C1_rejection_comment_client_guard cRules cExpense "mgr" " " 7
  exact ⟨(hiff Action.Rejected).mpr ⟨rfl, by decide⟩, hsave (by decide),
    hok { stepName := "Direct Manager", approverId := "mgr", status := Status.Pending,
          comment := none, approvedAt := none } rfl rfl rfl⟩

/-- Claim C5: A decision on a finalized expense always fails with
`AlreadyFinalized`; a decision by anyone other than the designated approver
of the current step fails with `WrongApprover`; on any decision error —
including the client-side `MissingRejectionComment` — nothing is persisted
and the stored expense keeps its prior value; and a failing call keeps
failing identically no matter how many times it is retried. -/
theorem C5_errors_leave_expense_unchanged :
    (∀ (rules : ApprovalRules) (e : Expense) (a : String) (act : Action)
        (c : String) (t : Nat), e.status ≠ Status.Pending →
      approve rules e a act c t = Except.error DecideError.AlreadyFinalized) ∧
    (∀ (rules : ApprovalRules) (e : Expense) (a : String) (act : Action)
        (c : String) (t : Nat) (st : ApprovalStep), e.status = Status.Pending →
      e.approvalChain[e.currentApproverIndex]? = some st → st.approverId ≠ a →
      approve rules e a act c t = Except.error DecideError.WrongApprover) ∧
    (∀ (rules : ApprovalRules) (e e' : Expense) (a : String) (act : Action)
        (c : String) (t : Nat) (err : DecideError),
      handleApprovalAndSave rules e a act c t = (e', some err) → e' = e) ∧
    (∀ (rules : ApprovalRules) (e : Expense) (a : String) (act : Action)
        (c : String) (t : Nat) (err : DecideError) (n : Nat),
      handleApprovalAndSave rules e a act c t = (e, some err) →
      handleApprovalAndSave rules
        ((fun x => (handleApprovalAndSave rules x a act c t).1)^[n] e) a act c t =
        (e, some err)) := by
  refine ⟨?_, ?_, ?_, ?_⟩
  · intro rules e a act c t hp
    exact approve_already_finalized rules e a act c t hp
  · intro rules e a act c t st hp hst hne
    exact approve_wrong_approver rules e a act c t st hp hst hne
  · intro rules e e' a act c t err h
    unfold handleApprovalAndSave at h
    split at h
    · exact absurd (congrArg Prod.snd h) (by simp)
    · exact (congrArg Prod.fst h).symm
  · intro rules e a act c t err n h
    have hfix : (fun x => (handleApprovalAndSave rules x a act c t).1) e = e := by
      show (handleApprovalAndSave rules e a act c t).1 = e
      rw [h]
    rw [Function.iterate_fixed hfix n]
    exact h

/-- Witness for C5: on the rejected fixture any further decision fails with
`AlreadyFinalized` and persists nothing even after five retries; a decision
by the director while the manager is designated fails with `WrongApprover`. -/
theorem C5_witness :
    approve cRules cRejected "fin" Action.Approved "fine" 9 =
      Except.error DecideError.AlreadyFinalized ∧
    approve cRules cExpense "dir" Action.Approved "" 9 =
      Except.error DecideError.WrongApprover ∧
    (handleApprovalAndSave cRules cRejected "fin" Action.Approved "fine" 9).1 =
      cRejected ∧
    handleApprovalAndSave cRules
      ((fun x => (handleApprovalAndSave cRules x "fin" Action.Approved "fine" 9).1)^[5]
        cRejected) "fin" Action.Approved "fine" 9 =
      (cRejected, some DecideError.AlreadyFinalized) := by
  obtain ⟨h1, h2, h3, h4⟩ := C5_errors_leave_expense_unchanged
  refine ⟨h1 cRules cRejected "fin" Action.Approved "fine" 9 (by decide),
    h2 cRules cExpense "dir" Action.Approved "" 9
      { stepName := "Direct Manager", approverId := "mgr", status := Status.Pending,
        comment := none, approvedAt := none } rfl rfl (by decide),
    h3 cRules cRejected _ "fin" Action.Approved "fine" 9
      DecideError.AlreadyFinalized rfl,
    h4 cRules cRejected "fin" Action.Approved "fine" 9
      DecideError.AlreadyFinalized 5 rfl⟩


/-! Chain-builder lemmas -/

/-- The resolution loop is exactly a `filterMap` of the template: resolved
steps are kept in template order, unresolvable steps are dropped. -/
theorem buildChainSteps_eq_filterMap (allUsers : List User) (submitter : User)
    (template : List ChainTemplateStep) :
    buildChainSteps allUsers submitter template =
      template.filterMap (fun step =>
        (resolveApprover allUsers submitter step).map (freshStep step)) := by
  induction template with
  | nil => rfl
  | cons s rest ih =>
    unfold buildChainSteps
    cases h : resolveApprover allUsers submitter s <;> simp [h, ih]

/-- The built chain has one entry per template step whose approver resolves. -/
theorem buildChainSteps_length (allUsers : List User) (submitter : User)
    (template : List ChainTemplateStep) :
    (buildChainSteps allUsers submitter template).length =
      (template.filter
        (fun step => (resolveApprover allUsers submitter step).isSome)).length := by
  induction template with
  | nil => rfl
  | cons s rest ih =>
    unfold buildChainSteps
    cases h : resolveApprover allUsers submitter s <;>
      simp [List.filter_cons, h, ih]

/-- Every step of a freshly built chain is a pristine `Pending` step. -/
theorem buildChainSteps_pristine (allUsers : List User) (submitter : User)
    (template : List ChainTemplateStep) :
    ∀ st ∈ buildChainSteps allUsers submitter template,
      st.status = Status.Pending ∧ st.comment = none ∧ st.approvedAt = none := by
  induction template with
  | nil => intro st h; cases h
  | cons s rest ih =>
    intro st h
    unfold buildChainSteps at h
    cases hr : resolveApprover allUsers submitter s with
    | none =>
      rw [hr] at h
      exact ih st h
    | some approver =>
      rw [hr] at h
      cases h with
      | head => exact ⟨rfl, rfl, rfl⟩
      | tail _ h2 => exact ih st h2

/-- Claim C6: For a submitter present in the directory, whenever at least one
template step resolves, `createApprovalChain` succeeds with the chain that
keeps exactly the resolvable template steps, in template order (it equals
the `filterMap` of the resolution over the template); its length is the
number of resolvable steps — unresolvable steps are dropped, never inserted
as placeholders — and every returned step is `Pending` with null comment
and null timestamp. -/
theorem C6_buildChain_resolution (rules : ApprovalRules) (allUsers : List User)
    (uid : String) (submitter : User)
    (hsub : allUsers.find? (fun u => u.id = uid) = some submitter)
    (hres : 0 < (rules.sequentialChain.filter
        (fun step => (resolveApprover allUsers submitter step).isSome)).length) :
    ∃ chain, createApprovalChain rules allUsers uid = Except.ok chain ∧
      chain = rules.sequentialChain.filterMap (fun step =>
        (resolveApprover allUsers submitter step).map (freshStep step)) ∧
      chain.length = (rules.sequentialChain.filter
        (fun step => (resolveApprover allUsers submitter step).isSome)).length ∧
      ∀ st ∈ chain,
        st.status = Status.Pending ∧ st.comment = none ∧ st.approvedAt = none := by
  unfold createApprovalChain
  rw [hsub]
  dsimp only
  rw [if_neg (by rw [buildChainSteps_length]; omega)]
  exact ⟨_, rfl, buildChainSteps_eq_filterMap allUsers submitter rules.sequentialChain,
    buildChainSteps_length allUsers submitter rules.sequentialChain,
    buildChainSteps_pristine allUsers submitter rules.sequentialChain⟩

/-- Witness for C6: submitting for `emp` under the default settings yields
the three fully-resolved pristine steps. -/
theorem C6_witness :
    ∃ chain, createApprovalChain cRules cUsers "emp" = Except.ok chain ∧
      chain.length = 3 ∧
      ∀ st ∈ chain,
        st.status = Status.Pending ∧ st.comment = none ∧ st.approvedAt = none := by
  obtain ⟨chain, hok, _, hlen, hpr⟩ :=
    C6_buildChain_resolution cRules cUsers "emp"
      { id := "emp", role := "Employee", managerId := some "mgr" } rfl (by decide)
  exact ⟨chain, hok, hlen.trans rfl, hpr⟩

/-- Claim C7: `createApprovalChain` fails with `SubmitterNotFound` whenever
the submitter is absent from the directory, and with `EmptyApprovalChain`
whenever no template step resolves to an approver; a submission therefore
never creates an expense with an empty chain. -/
theorem C7_buildChain_failures :
    (∀ (rules : ApprovalRules) (allUsers : List User) (uid : String),
      allUsers.find? (fun u => u.id = uid) = none →
      createApprovalChain rules allUsers uid =
        Except.error SubmitError.SubmitterNotFound) ∧
    (∀ (rules : ApprovalRules) (allUsers : List User) (uid : String)
        (submitter : User),
      allUsers.find? (fun u => u.id = uid) = some submitter →
      (rules.sequentialChain.filter
        (fun step => (resolveApprover allUsers submitter step).isSome)).length = 0 →
      createApprovalChain rules allUsers uid =
        Except.error SubmitError.EmptyApprovalChain) ∧
    (∀ (rules : ApprovalRules) (allUsers : List User) (eid uid : String)
        (e : Expense),
      submitExpense rules allUsers eid uid = Except.ok e → e.approvalChain ≠ []) := by
  refine ⟨?_, ?_, ?_⟩
  · intro rules allUsers uid h
    unfold createApprovalChain
    rw [h]
  · intro rules allUsers uid submitter hsub hzero
    unfold createApprovalChain
    rw [hsub]
    dsimp only
    rw [if_pos (by rw [buildChainSteps_length]; omega)]
  · intro rules allUsers eid uid e h
    unfold submitExpense createApprovalChain at h
    split at h
    · exact absurd h (by simp [Except.map])
    · dsimp only at h
      split at h
      · exact absurd h (by simp [Except.map])
      · rename_i hlen
        simp only [Except.map, Except.ok.injEq] at h
        rw [← h]
        intro hnil
        exact hlen (List.length_eq_zero.mpr hnil)

/-- Witness for C7: an unknown submitter id fails with `SubmitterNotFound`,
and a managerless submitter under a policy whose only step has role
`Manager` fails with `EmptyApprovalChain`. -/
theorem C7_witness :
    createApprovalChain cRules cUsers "ghost" =
      Except.error SubmitError.SubmitterNotFound ∧
    createApprovalChain
      { sequentialChain := [ { role := "Manager", name := "Direct Manager" } ]
        percentageRule := { enabled := false, threshold := 60 }
        hybridRule := { enabled := false, approverId := none } }
      [ { id := "solo", role := "Employee", managerId := none } ] "solo" =
      Except.error SubmitError.EmptyApprovalChain := by
  obtain ⟨h1, h2, _⟩ := C7_buildChain_failures
  exact ⟨h1 cRules cUsers "ghost" rfl,
    h2 _ _ "solo" { id := "solo", role := "Employee", managerId := none } rfl rfl⟩


/-! Sequential-run lemmas -/

/-- One approval by the designated approver with both rules disabled, when
the chain is not yet exhausted: the step is marked and the index advances. -/
theorem approve_step_advance (rules : ApprovalRules) (e : Expense)
    (comment : String) (now : Nat) (st : ApprovalStep)
    (hper : rules.percentageRule.enabled = false)
    (hhyb : rules.hybridRule.enabled = false)
    (hp : e.status = Status.Pending)
    (hst : e.approvalChain[e.currentApproverIndex]? = some st)
    (hlt : e.currentApproverIndex + 1 < e.approvalChain.length) :
    approve rules e st.approverId Action.Approved comment now =
      Except.ok { markCurrent e st Action.Approved comment now with
        currentApproverIndex := e.currentApproverIndex + 1 } := by
  rw [approve_ok_eq rules e st.approverId Action.Approved comment now st hp hst rfl]
  unfold decideTransition
  rw [if_neg (by simp),
    applyHybrid_of_neg _ (fun hc => by rw [hhyb] at hc; exact absurd hc.1 (by simp))]
  have h1p : (markCurrent e st Action.Approved comment now).status = Status.Pending := hp
  rw [applySequential_advance h1p
    (by rw [markCurrent_index, markCurrent_length]; exact hlt)]
  rw [applyPercentage_of_neg
    (fun hc => by rw [hper] at hc; exact absurd hc.2 (by simp))]
  rw [pinIndex_of_pending (by exact h1p)]
  rfl

/-- One approval by the designated approver with both rules disabled, when
this is the last step: the expense is finalized `Approved` and the index is
pinned to the chain length. -/
theorem approve_step_final (rules : ApprovalRules) (e : Expense)
    (comment : String) (now : Nat) (st : ApprovalStep)
    (hper : rules.percentageRule.enabled = false)
    (hhyb : rules.hybridRule.enabled = false)
    (hp : e.status = Status.Pending)
    (hst : e.approvalChain[e.currentApproverIndex]? = some st)
    (hge : e.approvalChain.length ≤ e.currentApproverIndex + 1) :
    approve rules e st.approverId Action.Approved comment now =
      Except.ok { markCurrent e st Action.Approved comment now with
        status := Status.Approved,
        currentApproverIndex := e.approvalChain.length } := by
  rw [approve_ok_eq rules e st.approverId Action.Approved comment now st hp hst rfl]
  unfold decideTransition
  rw [if_neg (by simp),
    applyHybrid_of_neg _ (fun hc => by rw [hhyb] at hc; exact absurd hc.1 (by simp))]
  have h1p : (markCurrent e st Action.Approved comment now).status = Status.Pending := hp
  rw [applySequential_finalize h1p
    (by rw [markCurrent_index, markCurrent_length]; exact hge)]
  rw [applyPercentage_of_neg (by simp), pinIndex_of_final (by simp)]
  dsimp only
  rw [markCurrent_length]

/-- Running the remaining `n` designated approvals of a pending expense with
both rules disabled finishes with status `Approved` and the index pinned to
the chain length. -/
theorem approveRun_completes (rules : ApprovalRules) (now : Nat)
    (hper : rules.percentageRule.enabled = false)
    (hhyb : rules.hybridRule.enabled = false) :
    ∀ (n : Nat) (e : Expense), e.status = Status.Pending →
      e.currentApproverIndex + n = e.approvalChain.length → 0 < n →
      ∃ e', approveRun rules now e n = Except.ok e' ∧
        e'.status = Status.Approved ∧
        e'.currentApproverIndex = e.approvalChain.length := by
  intro n
  induction n with
  | zero => intro e _ _ h0; omega
  | succ m ih =>
    intro e hp hsum _
    have hlt : e.currentApproverIndex < e.approvalChain.length := by omega
    obtain ⟨st, hst⟩ : ∃ st, e.approvalChain[e.currentApproverIndex]? = some st :=
      ⟨_, List.getElem?_eq_getElem hlt⟩
    have hcur : currentApproverId e = st.approverId := by
      unfold currentApproverId
      rw [hst]
      rfl
    by_cases hm : m = 0
    · subst hm
      unfold approveRun
      rw [hcur, approve_step_final rules e "" now st hper hhyb hp hst (by omega)]
      exact ⟨_, rfl, rfl, rfl⟩
    · unfold approveRun
      rw [hcur, approve_step_advance rules e "" now st hper hhyb hp hst (by omega)]
      have hYlen : ({ markCurrent e st Action.Approved "" now with
          currentApproverIndex := e.currentApproverIndex + 1 } : Expense).approvalChain.length =
          e.approvalChain.length := markCurrent_length e st Action.Approved "" now
      obtain ⟨e', hrun, hA, hidx⟩ :=
        ih { markCurrent e st Action.Approved "" now with
              currentApproverIndex := e.currentApproverIndex + 1 }
          hp (by rw [hYlen]; dsimp only; omega) (by omega)
      refine ⟨e', ?_, hA, ?_⟩
      · exact hrun
      · rw [hidx]
        exact hYlen

/-- Claim C4: With both rules disabled, a pending expense at step 0 of an
`N`-step chain, approved `N` times in sequence by the approver designated
at each current step, ends `Approved` with `currentApproverIndex = N`; and
a rejection by the current designated approver — under arbitrary rules —
marks the current step `Rejected` with comment and timestamp, finalizes the
expense `Rejected` unconditionally, and touches no other step. -/
theorem C4_sequential_and_rejection_final :
    (∀ (rules : ApprovalRules) (now : Nat) (e : Expense),
      rules.percentageRule.enabled = false → rules.hybridRule.enabled = false →
      e.status = Status.Pending → e.currentApproverIndex = 0 →
      0 < e.approvalChain.length →
      ∃ e', approveRun rules now e e.approvalChain.length = Except.ok e' ∧
        e'.status = Status.Approved ∧
        e'.currentApproverIndex = e.approvalChain.length) ∧
    (∀ (rules : ApprovalRules) (e : Expense) (a c : String) (t : Nat)
        (st : ApprovalStep), e.status = Status.Pending →
      e.approvalChain[e.currentApproverIndex]? = some st → st.approverId = a →
      ∃ e', approve rules e a Action.Rejected c t = Except.ok e' ∧
        e'.status = Status.Rejected ∧
        e'.approvalChain[e.currentApproverIndex]? =
          some ({ st with status := Status.Rejected, comment := some c, approvedAt := some t }) ∧
        (∀ j, j ≠ e.currentApproverIndex →
          e'.approvalChain[j]? = e.approvalChain[j]?)) := by
  constructor
  · intro rules now e hper hhyb hp hidx hpos
    exact approveRun_completes rules now hper hhyb e.approvalChain.length e hp
      (by omega) hpos
  · intro rules e a c t st hp hst hdes
    rw [approve_ok_eq rules e a Action.Rejected c t st hp hst hdes]
    unfold decideTransition
    rw [if_pos rfl, pinIndex_of_final (by simp)]
    have hlt : e.currentApproverIndex < e.approvalChain.length :=
      (List.getElem?_eq_some.mp hst).1
    refine ⟨_, rfl, rfl, ?_, ?_⟩
    · dsimp only
      rw [markCurrent_chain]
      exact List.getElem?_set_eq_of_lt _ hlt
    · intro j hj
      dsimp only
      rw [markCurrent_chain]
      exact List.getElem?_set_ne (Ne.symm hj)

/-- Witness for C4: with both rules disabled, the three designated
approvals of the three-step fixture end `Approved` at index 3, and the
manager's rejection of the first step finalizes the expense `Rejected`
with steps 2 and 3 untouched. -/
theorem C4_witness :
    (∃ e', approveRun cRulesOff 5 cExpense 3 = Except.ok e' ∧
      e'.status = Status.Approved ∧ e'.currentApproverIndex = 3) ∧
    (∃ e', approve cRulesOff cExpense "mgr" Action.Rejected "bad receipt" 7 =
        Except.ok e' ∧
      e'.status = Status.Rejected ∧
      e'.approvalChain[1]? = cExpense.approvalChain[1]? ∧
      e'.approvalChain[2]? = cExpense.approvalChain[2]?) := by
  obtain ⟨h1, h2⟩ := C4_sequential_and_rejection_final
  constructor
  · obtain ⟨e', hrun, hA, hidx⟩ := h1 cRulesOff 5 cExpense rfl rfl rfl rfl (by decide)
    exact ⟨e', hrun, hA, hidx⟩
  · obtain ⟨e', hok, hR, _, hframe⟩ :=
      h2 cRulesOff cExpense "mgr" "bad receipt" 7
        { stepName := "Direct Manager", approverId := "mgr", status := Status.Pending,
          comment := none, approvedAt := none } rfl rfl rfl
    exact ⟨e', hok, hR, hframe 1 (by decide), hframe 2 (by decide)⟩


/-! Invariant preservation -/

/-- If the percentage stage leaves the status `Pending`, it changed nothing. -/
theorem applyPercentage_of_status_pending {rules : ApprovalRules} {e : Expense}
    (h : (applyPercentage rules e).status = Status.Pending) :
    applyPercentage rules e = e := by
  by_cases h1 : e.status = Status.Pending ∧ rules.percentageRule.enabled
  · by_cases h2 : 0 < e.approvalChain.length ∧
        ((countApproved e.approvalChain : ℚ) / (e.approvalChain.length : ℚ)) * 100 ≥
          rules.percentageRule.threshold
    · exfalso
      rw [applyPercentage_fires h1.1 h1.2 h2] at h
      exact absurd h (by simp)
    · exact applyPercentage_skips h2
  · exact applyPercentage_of_neg h1

/-- A successful decision preserves the documented chain invariant. -/
theorem approve_preserves_invariant {rules : ApprovalRules} {e : Expense}
    {a : String} {act : Action} {c : String} {t : Nat} {e' : Expense}
    (hinv : ChainInvariant e) (h : approve rules e a act c t = Except.ok e') :
    ChainInvariant e' := by
  obtain ⟨st, hp, hst, hdes, rfl⟩ := approve_ok_inv h
  intro h'
  rw [pinIndex_status] at h'
  rw [pinIndex_of_pending h']
  cases act with
  | Rejected =>
    exfalso
    unfold decideTransition at h'
    rw [if_pos rfl] at h'
    exact absurd h' (by simp)
  | Approved =>
    unfold decideTransition at h' ⊢
    rw [if_neg (by simp)] at h' ⊢
    by_cases hH : rules.hybridRule.enabled ∧ rules.hybridRule.approverId = some a
        ∧ Action.Approved = Action.Approved
    · exfalso
      rw [applyHybrid_of_pos _ hH, applySequential_of_final (by simp),
        applyPercentage_of_neg (by simp)] at h'
      exact absurd h' (by simp)
    · rw [applyHybrid_of_neg _ hH] at h' ⊢
      have h1p : (markCurrent e st Action.Approved c t).status = Status.Pending := hp
      by_cases hS : (markCurrent e st Action.Approved c t).approvalChain.length ≤
          (markCurrent e st Action.Approved c t).currentApproverIndex + 1
      · exfalso
        rw [applySequential_finalize h1p hS, applyPercentage_of_neg (by simp)] at h'
        exact absurd h' (by simp)
      · rw [applySequential_advance h1p (by omega)] at h' ⊢
        have hPP := applyPercentage_of_status_pending h'
        rw [hPP]
        have hlen1 : (markCurrent e st Action.Approved c t).approvalChain.length =
            e.approvalChain.length := markCurrent_length e st Action.Approved c t
        have hidx1 : (markCurrent e st Action.Approved c t).currentApproverIndex =
            e.currentApproverIndex := markCurrent_index e st Action.Approved c t
        obtain ⟨hlt0, hsteps⟩ := hinv hp
        have hchain : (markCurrent e st Action.Approved c t).approvalChain =
            e.approvalChain.set e.currentApproverIndex
              ({ st with status := Status.Approved, comment := some c, approvedAt := some t }) :=
          rfl
        refine ⟨?_, ?_⟩
        · show (markCurrent e st Action.Approved c t).currentApproverIndex + 1 <
            (markCurrent e st Action.Approved c t).approvalChain.length
          omega
        · intro j stj hj
          have hj2 : (e.approvalChain.set e.currentApproverIndex
              ({ st with status := Status.Approved, comment := some c, approvedAt := some t }))[j]? =
              some stj := by
            rw [← hchain]
            exact hj
          by_cases hje : j = e.currentApproverIndex
          · rw [hje, List.getElem?_set_eq_of_lt _ hlt0, Option.some.injEq] at hj2
            refine ⟨fun _ => ?_, fun hje2 => ?_, fun hgt2 => ?_⟩
            · rw [← hj2]
            · exfalso
              have hje2' : j = (markCurrent e st Action.Approved c t).currentApproverIndex + 1 :=
                hje2
              omega
            · exfalso
              have hgt2' : (markCurrent e st Action.Approved c t).currentApproverIndex + 1 < j :=
                hgt2
              omega
          · rw [List.getElem?_set_ne (Ne.symm hje)] at hj2
            obtain ⟨ha, hb, hc⟩ := hsteps j stj hj2
            refine ⟨fun hlt2 => ?_, fun hje2 => ?_, fun hgt2 => ?_⟩
            · have hlt2' : j < (markCurrent e st Action.Approved c t).currentApproverIndex + 1 :=
                hlt2
              exact ha (by omega)
            · have hje2' : j = (markCurrent e st Action.Approved c t).currentApproverIndex + 1 :=
                hje2
              exact (hc (by omega)).1
            · have hgt2' : (markCurrent e st Action.Approved c t).currentApproverIndex + 1 < j :=
                hgt2
              exact hc (by omega)

/-- A successful submission establishes the documented chain invariant. -/
theorem submit_invariant {rules : ApprovalRules} {allUsers : List User}
    {eid uid : String} {e : Expense}
    (h : submitExpense rules allUsers eid uid = Except.ok e) : ChainInvariant e := by
  unfold submitExpense createApprovalChain at h
  split at h
  · exact absurd h (by simp [Except.map])
  · dsimp only at h
    split at h
    · exact absurd h (by simp [Except.map])
    · rename_i hlen
      simp only [Except.map, Except.ok.injEq] at h
      rw [← h]
      intro _
      constructor
      · show 0 < (buildChainSteps _ _ _).length
        omega
      · intro j stj hj
        have hpr := buildChainSteps_pristine _ _ _ stj (List.getElem?_mem hj)
        exact ⟨fun hlt => absurd (show j < 0 from hlt) (Nat.not_lt_zero j),
          fun _ => hpr.1, fun _ => ⟨hpr.1, hpr.2.1, hpr.2.2⟩⟩

/-- Claim C8: Every expense reachable from a submission by successful decision
calls satisfies, while `Pending`, the chain invariant: the current index is
in range, the step there is `Pending`, every earlier step is `Approved`,
and every later step is an untouched `Pending` placeholder with null
comment and null timestamp. -/
theorem C8_reachable_invariant (e : Expense) (h : Reachable e) :
    ChainInvariant e := by
  induction h with
  | submitted rules allUsers eid uid e hsub => exact submit_invariant hsub
  | decided rules e a act c t e' hr hstep ih => exact approve_preserves_invariant ih hstep

/-- Witness for C8: the freshly submitted three-step fixture is reachable
and satisfies the invariant. -/
theorem C8_witness : ChainInvariant cExpense :=
  C8_reachable_invariant cExpense
    (Reachable.submitted cRules cUsers "e1" "emp" cExpense rfl)

end ExpenseMgmt
